import Mathlib

/-!
Verification development for the Jira-API-Extractor repository.

Each Python function relevant to the checked properties is shallowly
embedded as an executable Lean definition, keeping the source structure:

* `paginate_request` (src/utils.py)        → `paginate_request`
* `get_story_points` (src/config.py)       → `get_story_points`
* `calculate_epic_progress`,
  `calculate_sprint_composition`
  (src/progress_data_aggregator.py)        → same names
* sprint-field normalization inside
  `get_issue_sprints` (src/jira_api.py)    → `normalizeSprints`
* worklog date filtering inside
  `get_all_worklogs_in_date_range`
  (src/jira_api.py)                        → `filterWorklogsByDate`
* timezone-colon fix (src/jira_api.py,
  src/main.py)                             → `fix_tz_offset`
* argument validation in `main`
  (src/main.py)                            → `mainDispatch`

Machine floats of the source are modelled as rationals; JSON null is
modelled as `Option`.
-/

/-! ## Pagination engine (src/utils.py, `paginate_request`) -/

/-- One JSON response of a paged endpoint: the page of results plus the
optional `total` count (`data.get('total', 0)` in the source reads it
with default 0, so absence is meaningful). -/
structure PageResponse (α : Type) where
  results : List α
  total : Option Nat
deriving DecidableEq

/-- Page size used by the source (`max_results = 100` in src/utils.py). -/
def pageSize : Nat := 100

/-- Loop body of `paginate_request` (the `while True` in src/utils.py,
lines 41-71).  `server s` models issuing the GET at offset `s`: `.error`
models an exception raised by the request / status check / JSON parse.
The second component of the result records the offsets at which requests
were actually issued (instrumentation; the source only returns the
list).  The `fuel` argument bounds the number of iterations: the source
loop is genuinely partial (a server whose reported total keeps growing
makes it run forever), so the embedding is fuel-indexed and every
theorem supplies enough fuel for the run it describes.

On `.error` the source prints a message, `break`s, and falls through to
`return all_results` - the partial list gathered so far, with no error
indication. -/
def paginateLoop (server : Nat → Except String (PageResponse α)) :
    Nat → Nat → List α → List α × List Nat
  | 0, _, acc => (acc, [])
  | fuel + 1, start_at, acc =>
    match server start_at with
    | .error _ => (acc, [start_at])
    | .ok r =>
      let total := r.total.getD 0
      let acc' := acc ++ r.results
      if r.results.length < pageSize ∨ total ≤ start_at + r.results.length then
        (acc', [start_at])
      else
        let rest := paginateLoop server fuel (start_at + r.results.length) acc'
        (rest.1, start_at :: rest.2)

/-- The value `paginate_request` returns: all pages concatenated (or the
partial prefix on failure). -/
def paginate_request (server : Nat → Except String (PageResponse α))
    (fuel : Nat) : List α :=
  (paginateLoop server fuel 0 []).1

/-- The offsets at which `paginate_request` issues requests during a run
(ghost instrumentation of the same loop). -/
def pageOffsets (server : Nat → Except String (PageResponse α))
    (fuel : Nat) : List Nat :=
  (paginateLoop server fuel 0 []).2

/-- An honest server backed by a fixed dataset: the response at offset
`s` is the next at-most-`pageSize` items and the reported total is the
dataset size. -/
def dataServer (data : List α) (s : Nat) : Except String (PageResponse α) :=
  .ok ⟨(data.drop s).take pageSize, some data.length⟩

/-- A server holding 150 items that serves the first page and then fails:
offset 0 answers 100 items with total 150, any later offset raises. -/
def failServer (s : Nat) : Except String (PageResponse Nat) :=
  if s = 0 then .ok ⟨(List.range 150).take pageSize, some 150⟩
  else .error "connection reset"

/-- A server that is unreachable: every request raises. -/
def downServer (_ : Nat) : Except String (PageResponse Nat) :=
  .error "connection refused"

/-! ## Story-points fallback (src/config.py, `get_story_points`) -/

/-- Embedding of `get_story_points(issue_fields)` restricted to the two
configured fields, which the claim assumes numeric-or-null: `sp` models
`issue_fields.get(JIRA_STORY_POINTS_FIELD)` and `sp_est` the estimate
field.  Python truthiness of a number is "nonzero", hence the inner
conditionals mirroring `float(v) if v else 0`. -/
def get_story_points (sp sp_est : Option ℚ) : ℚ :=
  match sp, sp_est with
  | none, none => 0
  | some a, some _ => if a ≠ 0 then a else 0
  | some a, none => if a ≠ 0 then a else 0
  | none, some b => if b ≠ 0 then b else 0

/-! ## Aggregator data model (src/progress_data_aggregator.py) -/

/-- The `parent` field of an issue: its `key` and its nested
`fields.summary`, both possibly absent. -/
structure ParentRef where
  key : Option String
  summary : Option String
deriving DecidableEq

/-- The parts of a Jira issue the aggregator reads: `fields.parent`,
`fields[JIRA_STORY_POINTS_FIELD]` (null modelled as `none`) and
`fields.status.statusCategory.name` (the chained `.get`s default it to
the empty string). -/
structure Issue where
  parent : Option ParentRef
  storyPoints : Option ℚ
  statusCategory : String
deriving DecidableEq

/-- Epic key of an issue: `parent_field.get('key', 'No Epic')` when the
parent is present (and truthy), else the sentinel `"No Epic"`. -/
def epicKeyOf (i : Issue) : String :=
  match i.parent with
  | some p => p.key.getD "No Epic"
  | none => "No Epic"

/-- Epic display name: `parent_field.get('fields', {}).get('summary',
epic_key)` when the parent is present, else `"No Epic"`. -/
def epicNameOf (i : Issue) : String :=
  match i.parent with
  | some p => p.summary.getD (p.key.getD "No Epic")
  | none => "No Epic"

/-- Story points of an issue with null coerced to 0 (`if story_points is
None: story_points = 0`). -/
def pts0 (i : Issue) : ℚ :=
  i.storyPoints.getD 0

/-- Embedding of `truncate_epic_name(name, max_length=40)`. -/
def truncate_epic_name (name : String) : String :=
  if name = "" ∨ name.length ≤ 40 then name else name.take 40 ++ "..."

/-- One entry of the `epic_data` dict in `calculate_epic_progress`.  The
`percentage` key only appears on the dict at the end of the function; it
is carried here from the start with value 0 and overwritten then. -/
structure EpicRec where
  epic_key : String
  epic_name : String
  done_points : ℚ
  in_progress_points : ℚ
  to_do_points : ℚ
  total_points : ℚ
  percentage : ℚ
deriving DecidableEq

/-- The per-issue update of an epic entry: bucket the story points by
status category (`Done` / `In Progress` / everything else) and add them
to the total. -/
def bumpEpic (e : EpicRec) (i : Issue) : EpicRec :=
  let p := pts0 i
  let e :=
    if i.statusCategory = "Done" then
      { e with done_points := e.done_points + p }
    else if i.statusCategory = "In Progress" then
      { e with in_progress_points := e.in_progress_points + p }
    else
      { e with to_do_points := e.to_do_points + p }
  { e with total_points := e.total_points + p }

/-- Updating the (unique) entry of key `k` in the insertion-ordered
entry list, the model of `epic_data[epic_key]` assignment. -/
def updateEpic (k : String) (i : Issue) : List EpicRec → List EpicRec
  | [] => []
  | e :: es => if e.epic_key = k then bumpEpic e i :: es else e :: updateEpic k i es

/-- One iteration of the `for issue in issues` loop of
`calculate_epic_progress`: initialize the entry if the key is new (dict
insertion appends in iteration order), then apply the `+=` updates. -/
def addIssueEpic (acc : List EpicRec) (i : Issue) : List EpicRec :=
  let k := epicKeyOf i
  let acc' :=
    if acc.any (fun e => e.epic_key = k) then acc
    else acc ++ [⟨k, truncate_epic_name (epicNameOf i), 0, 0, 0, 0, 0⟩]
  updateEpic k i acc'

/-- The `epic_data` dict after the whole loop, as its insertion-ordered
list of entries. -/
def epicData (issues : List Issue) : List EpicRec :=
  issues.foldl addIssueEpic []

/-- Setting the percentage of a surviving entry:
`(done / total * 100) if total > 0 else 0`. -/
def setPercentage (e : EpicRec) : EpicRec :=
  { e with percentage :=
      if 0 < e.total_points then e.done_points / e.total_points * 100 else 0 }

/-- Stable descending insertion by `percentage`: an element is placed
before the first entry whose percentage is not larger, which is exactly
the order produced by the stable `result.sort(key=..., reverse=True)`. -/
def insertByPct (x : EpicRec) : List EpicRec → List EpicRec
  | [] => [x]
  | y :: ys => if y.percentage ≤ x.percentage then x :: y :: ys
               else y :: insertByPct x ys

/-- Stable sort by completion percentage, highest first. -/
def sortByPctDesc (l : List EpicRec) : List EpicRec :=
  l.foldr insertByPct []

/-- Embedding of `calculate_epic_progress(issues)`: group, drop groups
with nonpositive total, attach percentages, sort descending. -/
def calculate_epic_progress (issues : List Issue) : List EpicRec :=
  sortByPctDesc
    (((epicData issues).filter (fun e => 0 < e.total_points)).map setPercentage)

/-- One entry of the `epic_totals` dict in
`calculate_sprint_composition`. -/
structure CompRec where
  epic_key : String
  epic_name : String
  total_points : ℚ
  percentage : ℚ
deriving DecidableEq

/-- Updating the unique entry of key `k` with additional points. -/
def updateComp (k : String) (p : ℚ) : List CompRec → List CompRec
  | [] => []
  | e :: es => if e.epic_key = k then { e with total_points := e.total_points + p } :: es
               else e :: updateComp k p es

/-- One iteration of the `for issue in issues` loop of
`calculate_sprint_composition` acting on the `epic_totals` dict. -/
def addIssueComp (acc : List CompRec) (i : Issue) : List CompRec :=
  let k := epicKeyOf i
  let acc' :=
    if acc.any (fun e => e.epic_key = k) then acc
    else acc ++ [⟨k, truncate_epic_name (epicNameOf i), 0, 0⟩]
  updateComp k (pts0 i) acc'

/-- The `epic_totals` dict after the loop. -/
def compData (issues : List Issue) : List CompRec :=
  issues.foldl addIssueComp []

/-- The `sprint_total` accumulator of the same loop. -/
def sprintTotal (issues : List Issue) : ℚ :=
  issues.foldl (fun s i => s + pts0 i) 0

/-- Embedding of `calculate_sprint_composition(issues)`: drop groups with
nonpositive total and attach each percentage share
`(total_points / sprint_total * 100) if sprint_total > 0 else 0`;
output keeps first-seen grouping order (no sort in the source). -/
def calculate_sprint_composition (issues : List Issue) : List CompRec :=
  let s := sprintTotal issues
  ((compData issues).filter (fun e => 0 < e.total_points)).map
    (fun e => { e with percentage :=
        if 0 < s then e.total_points / s * 100 else 0 })

/-! ## Sprint-field normalization (src/jira_api.py, `get_issue_sprints`)

The sprint custom field can arrive as a list, a single dict or a legacy
string of key=value pairs.  JSON scalar values are modelled as strings.
The `hasattr(sprint_data, 'id')` object branch is unreachable for
JSON-decoded data and is not modelled. -/

/-- One element of the sprint field: a dict with the three keys the code
reads (each possibly absent) or a raw string. -/
inductive SprintVal
  | dict (id name state : Option String)
  | str (s : String)
deriving DecidableEq

/-- The whole custom-field value: list of elements, single dict, or
string. -/
inductive SprintFieldVal
  | list (xs : List SprintVal)
  | dict (id name state : Option String)
  | str (s : String)
deriving DecidableEq

/-- A normalized sprint record `{id, name, state}`. -/
structure SprintInfo where
  id : String
  name : String
  state : String
deriving DecidableEq

/-- Boolean prefix test on character lists (model of a regex pattern
anchored at the current search position). -/
def isPref : List Char → List Char → Bool
  | [], _ => true
  | _ :: _, [] => false
  | a :: as, b :: bs => a == b && isPref as bs

/-- Substring test, model of Python `pat in s`. -/
def containsSub (pat : List Char) : List Char → Bool
  | [] => pat.isEmpty
  | c :: cs => isPref pat (c :: cs) || containsSub pat cs

/-- Model of `re.search(pat ++ "(X+)", s)` for a literal `pat` and a
character class `X` given by `good`: scan left to right for the first
position where `pat` occurs followed by at least one `good` character,
and return the maximal (greedy) run of `good` characters after it. -/
def scanCapture (pat : List Char) (good : Char → Bool) : List Char → Option (List Char)
  | [] => none
  | c :: cs =>
    if isPref pat (c :: cs) then
      let cap := ((c :: cs).drop pat.length).takeWhile good
      if cap.isEmpty then scanCapture pat good cs else some cap
    else scanCapture pat good cs

/-- Character class of the regex `[^,\x5d]` used for name and state. -/
def notCommaBr (c : Char) : Bool :=
  c != ',' && c != ']'

/-- Model of `re.search(r'id=(\d+)', s)` with `'Unknown'` fallback. -/
def extractId (s : String) : String :=
  match scanCapture "id=".data Char.isDigit s.data with
  | some cap => String.mk cap
  | none => "Unknown"

/-- Model of `re.search` for `name=` with `'Unknown'` fallback. -/
def extractName (s : String) : String :=
  match scanCapture "name=".data notCommaBr s.data with
  | some cap => String.mk cap
  | none => "Unknown"

/-- Model of `re.search` for `state=` with `'Unknown'` fallback. -/
def extractState (s : String) : String :=
  match scanCapture "state=".data notCommaBr s.data with
  | some cap => String.mk cap
  | none => "Unknown"

/-- Python truthiness of one sprint element (`if sprint_data:`): a dict
is truthy when nonempty - restricted to the modelled keys - and a string
when nonempty. -/
def sprintValTruthy : SprintVal → Bool
  | .dict i n st => i.isSome || n.isSome || st.isSome
  | .str s => s ≠ ""

/-- Truthiness of the whole field value (`if field_value:`). -/
def fieldTruthy : SprintFieldVal → Bool
  | .list xs => !xs.isEmpty
  | .dict i n st => i.isSome || n.isSome || st.isSome
  | .str s => s ≠ ""

/-- Marker test of the string shape: `'id=' in v or 'name=' in v`. -/
def strLooksLikeSprint (s : String) : Bool :=
  containsSub "id=".data s.data || containsSub "name=".data s.data

/-- The shape-detection step of `get_issue_sprints` (lines 93-112 of
src/jira_api.py) for one candidate field value: decide whether it looks
like sprint data and if so return the element list `sprint_field`. -/
def detectSprintField (fv : SprintFieldVal) : Option (List SprintVal) :=
  if !fieldTruthy fv then none
  else
    match fv with
    | .list xs =>
      match xs with
      | [] => none
      | first :: _ =>
        match first with
        | .dict i _ _ => if i.isSome then some xs else none
        | .str s => if strLooksLikeSprint s then some xs else none
    | .dict i n st => if i.isSome then some [.dict i n st] else none
    | .str s => if strLooksLikeSprint s then some [.str s] else none

/-- Parsing one sprint element into the uniform record (lines 116-143):
dict lookups default to `'Unknown'`; strings go through the regex
extraction. -/
def parseSprintData : SprintVal → SprintInfo
  | .dict i n st => ⟨i.getD "Unknown", n.getD "Unknown", st.getD "Unknown"⟩
  | .str s => ⟨extractId s, extractName s, extractState s⟩

/-- The normalization pipeline of `get_issue_sprints` after the field is
located: skip falsy elements, parse each, keep records whose id was
found (`if sprint_info.get('id') != 'Unknown'`). -/
def normalizeSprints (fv : SprintFieldVal) : List SprintInfo :=
  match detectSprintField fv with
  | none => []
  | some xs =>
    ((xs.filter sprintValTruthy).map parseSprintData).filter
      (fun r => r.id ≠ "Unknown")

/-! ## Timestamps and worklog date filtering (src/jira_api.py, src/main.py) -/

/-- Embedding of the timezone-colon fix applied before every
`fromisoformat` call:

    if s[-3] != ':':
        s = s[:-2] + ':' + s[-2:]

`none` models the IndexError Python raises when the string is shorter
than 3 characters. -/
def fix_tz_offset (s : String) : Option String :=
  let cs := s.data
  if cs.length < 3 then none
  else if cs.getD (cs.length - 3) ' ' = ':' then some s
  else some (String.mk (cs.take (cs.length - 2) ++ ':' :: cs.drop (cs.length - 2)))

/-- A plain calendar date. -/
structure Date where
  year : Nat
  month : Nat
  day : Nat
deriving DecidableEq

/-- Decimal value of a digit list. -/
def digitsVal (cs : List Char) : Nat :=
  cs.foldl (fun a c => a * 10 + (c.toNat - 48)) 0

/-- Model of `datetime.fromisoformat(s).date()` (and of
`datetime.strptime(s, "%Y-%m-%d").date()`): the calendar date written in
the first ten characters `YYYY-MM-DD`.  `fromisoformat` performs no
timezone arithmetic, so the offset suffix of the string never influences
the date. -/
def parseISODate (s : String) : Date :=
  let cs := s.data
  ⟨digitsVal (cs.take 4), digitsVal ((cs.drop 5).take 2), digitsVal ((cs.drop 8).take 2)⟩

/-- Lexicographic comparison of dates, the order Python `date` objects
use. -/
def dateLE (a b : Date) : Bool :=
  a.year < b.year ||
    (a.year = b.year && (a.month < b.month ||
      (a.month = b.month && a.day ≤ b.day)))

/-- The parts of a raw worklog JSON object that the date filter reads:
`worklog.get('started')` and `worklog.get('issueId')`. -/
structure RawWorklog where
  started : Option String
  issueId : Option String
deriving DecidableEq

/-- The per-worklog test of the Step-1 filter of
`get_all_worklogs_in_date_range` (src/jira_api.py lines 220-240): the
started timestamp must be present, its offset colon is fixed, the string
is parsed keeping its own offset, and only the calendar date is
compared against the window. -/
def worklogInRange (startD endD : Date) (w : RawWorklog) : Bool :=
  match w.started with
  | none => false
  | some s =>
    match fix_tz_offset s with
    | none => false
    | some s' =>
      dateLE startD (parseISODate s') && dateLE (parseISODate s') endD

/-- The Step-1 date filter over a batch of raw worklogs; a surviving
worklog must also carry an `issueId` (`if issue_id:`). -/
def filterWorklogsByDate (ws : List RawWorklog) (start_date end_date : String) :
    List RawWorklog :=
  let startD := parseISODate start_date
  let endD := parseISODate end_date
  ws.filter (fun w => worklogInRange startD endD w && w.issueId.isSome)

/-! ## Command-line validation (src/main.py, `main`) -/

/-- The argparse results that drive validation and fetching. -/
structure Args where
  sprint : Option String
  start_date : Option String
  end_date : Option String
deriving DecidableEq

/-- What `main` does with the arguments before any artifact is written. -/
inductive MainOutcome
  | earlyValidationError
  | proceed (fetchSprint : Bool) (fetchLogsAndComments : Bool)
deriving DecidableEq

/-- Embedding of the validation and dispatch prefix of `main`
(src/main.py lines 325-353): the only validation is the both-or-neither
check on the date pair; otherwise the function proceeds to the fetch
stage, fetching sprint issues when `--sprint` is given and worklogs plus
comments when both dates are given. -/
def mainDispatch (a : Args) : MainOutcome :=
  if (a.start_date.isSome ∧ a.end_date = none) ∨
     (a.start_date = none ∧ a.end_date.isSome) then
    .earlyValidationError
  else
    .proceed a.sprint.isSome (a.start_date.isSome && a.end_date.isSome)

/-! ## Verification-side helper definitions -/

/-- Sum of `f` over a list. -/
def sumBy (l : List α) (f : α → ℚ) : ℚ :=
  (l.map f).sum

/-- Contribution of an issue to the `Done` bucket (the `if/elif/else`
chain of the source). -/
def donePts (i : Issue) : ℚ :=
  if i.statusCategory = "Done" then pts0 i else 0

/-- Contribution of an issue to the `In Progress` bucket. -/
def inProgPts (i : Issue) : ℚ :=
  if i.statusCategory = "Done" then 0
  else if i.statusCategory = "In Progress" then pts0 i else 0

/-- Contribution of an issue to the `To Do or other` bucket. -/
def toDoPts (i : Issue) : ℚ :=
  if i.statusCategory = "Done" then 0
  else if i.statusCategory = "In Progress" then 0 else pts0 i

/-- Total story points (null coerced to 0) of the issues of epic `k`. -/
def epicTotal (issues : List Issue) (k : String) : ℚ :=
  sumBy (issues.filter (fun i => epicKeyOf i = k)) pts0

/-- Done story points of the issues of epic `k`. -/
def epicDone (issues : List Issue) (k : String) : ℚ :=
  sumBy (issues.filter (fun i => epicKeyOf i = k)) donePts

/-- In-progress story points of the issues of epic `k`. -/
def epicInProg (issues : List Issue) (k : String) : ℚ :=
  sumBy (issues.filter (fun i => epicKeyOf i = k)) inProgPts

/-- To-do story points of the issues of epic `k`. -/
def epicToDo (issues : List Issue) (k : String) : ℚ :=
  sumBy (issues.filter (fun i => epicKeyOf i = k)) toDoPts

/-- Correctness of one accumulator entry after the issues in `done` have
been processed: every bucket holds the corresponding filtered sum. -/
def EpicEntryOk (done : List Issue) (e : EpicRec) : Prop :=
  e.done_points = epicDone done e.epic_key ∧
  e.in_progress_points = epicInProg done e.epic_key ∧
  e.to_do_points = epicToDo done e.epic_key ∧
  e.total_points = epicTotal done e.epic_key

/-- Invariant of the grouping loop of `calculate_epic_progress`: keys
are pairwise distinct, entries carry the filtered sums, and every
processed issue has an entry for its key. -/
def EpicAccOk (acc : List EpicRec) (done : List Issue) : Prop :=
  (acc.map (fun e => e.epic_key)).Nodup ∧
  (∀ e ∈ acc, EpicEntryOk done e) ∧
  (∀ i ∈ done, epicKeyOf i ∈ acc.map (fun e => e.epic_key))

/-- Invariant of the grouping loop of `calculate_sprint_composition`. -/
def CompAccOk (acc : List CompRec) (done : List Issue) : Prop :=
  (acc.map (fun e => e.epic_key)).Nodup ∧
  (∀ e ∈ acc, e.total_points = epicTotal done e.epic_key) ∧
  (∀ i ∈ done, epicKeyOf i ∈ acc.map (fun e => e.epic_key))

/-- The end-to-end scenario of the specification: Epic A with two
5-point issues (Done, In Progress) and Epic B with one 0-point issue. -/
def exampleIssues : List Issue :=
  [⟨some ⟨some "EA", some "Epic A"⟩, some 5, "Done"⟩,
   ⟨some ⟨some "EA", some "Epic A"⟩, some 5, "In Progress"⟩,
   ⟨some ⟨some "EB", some "Epic B"⟩, some 0, "To Do"⟩]

/-- The single record `calculate_epic_progress` produces for the
scenario. -/
def exampleEpicRec : EpicRec :=
  ⟨"EA", "Epic A", 5, 5, 0, 10, 50⟩

/-! ## Pagination lemmas and claim theorems -/

/-- On an honest data-backed server, the loop started at offset `s` with
the first `s` items already gathered returns the full dataset, and every
offset it requests is either `s` itself or lies strictly below the
reported total. -/
theorem paginateLoop_dataServer {α : Type} (data : List α) :
    ∀ (fuel s : Nat), s ≤ data.length → data.length < s + pageSize * fuel →
      (paginateLoop (dataServer data) fuel s (data.take s)).1 = data ∧
      ∀ o ∈ (paginateLoop (dataServer data) fuel s (data.take s)).2,
        o = s ∨ o < data.length := by
  intro fuel
  induction fuel with
  | zero => intro s hs hlt; omega
  | succ n ih =>
    intro s hs hlt
    by_cases h : data.length - s ≤ pageSize
    · have hres : (data.drop s).take pageSize = data.drop s :=
        List.take_of_length_le (by rw [List.length_drop]; omega)
      have hcond : ((data.drop s).take pageSize).length < pageSize ∨
          (some data.length).getD 0 ≤ s + ((data.drop s).take pageSize).length := by
        right
        rw [hres, List.length_drop, Option.getD_some]
        omega
      simp only [paginateLoop, dataServer, if_pos hcond]
      refine ⟨by rw [hres, List.take_append_drop], ?_⟩
      intro o ho
      rw [List.mem_singleton] at ho
      exact Or.inl ho
    · have hlen : ((data.drop s).take pageSize).length = pageSize := by
        rw [List.length_take, List.length_drop]
        omega
      have hcond : ¬ (pageSize < pageSize ∨
          (some data.length).getD 0 ≤ s + pageSize) := by
        rw [Option.getD_some]
        push_neg
        omega
      have hacc : data.take s ++ (data.drop s).take pageSize =
          data.take (s + pageSize) := (List.take_add data s pageSize).symm
      have ihs := ih (s + pageSize) (by omega) (by
        have : pageSize * (n + 1) = pageSize * n + pageSize := by ring
        omega)
      simp only [paginateLoop, dataServer]
      rw [hlen, hacc, if_neg hcond]
      refine ⟨ihs.1, ?_⟩
      intro o ho
      rw [List.mem_cons] at ho
      rcases ho with rfl | ho
      · left; rfl
      · rcases ihs.2 o ho with rfl | hlt'
        · right; omega
        · right; exact hlt'

/-- The loop breaks immediately when a response carries no total: with
`data.get('total', 0)` the running count can never be below the default
total 0, so in particular a page smaller than the page size ends the
run with the accumulated items plus that page. -/
theorem paginateLoop_noTotal {α : Type}
    (server : Nat → Except String (PageResponse α)) (fuel s : Nat)
    (acc : List α) (r : PageResponse α) (hs : server s = .ok r)
    (ht : r.total = none) (_ : r.results.length < pageSize) :
    paginateLoop server (fuel + 1) s acc = (acc ++ r.results, [s]) := by
  have hcond : r.results.length < pageSize ∨
      (r.total.getD 0 : Nat) ≤ s + r.results.length := by
    right; rw [ht]; exact Nat.zero_le _
  simp only [paginateLoop, hs, if_pos hcond]

/-- C3: when the server reports a total, `paginate_request` returns
exactly `total` items (the concatenation of the pages equals the
dataset), and it never issues a request at an offset at which the
running count of fetched items has already reached the total (the only
offset not strictly below the total is the mandatory first request at
0); when a response reports no total, a page smaller than the requested
page size terminates the loop at once. -/
theorem C3_pagination_exact_total {α : Type} (data : List α) (fuel : Nat)
    (hfuel : data.length < pageSize * fuel) :
    paginate_request (dataServer data) fuel = data ∧
    (∀ o ∈ pageOffsets (dataServer data) fuel, o = 0 ∨ o < data.length) ∧
    (∀ (server : Nat → Except String (PageResponse α)) (f s : Nat)
        (acc : List α) (r : PageResponse α), server s = .ok r →
        r.total = none → r.results.length < pageSize →
        paginateLoop server (f + 1) s acc = (acc ++ r.results, [s])) := by
  have h := paginateLoop_dataServer data fuel 0 (Nat.zero_le _) (by omega)
  rw [List.take_zero] at h
  exact ⟨h.1, h.2, fun server f s acc r h1 h2 h3 =>
    paginateLoop_noTotal server f s acc r h1 h2 h3⟩

/-- Witness for C3 at a concrete 150-item dataset fetched with enough
fuel: the two pages concatenate to the full dataset and both requested
offsets (0 and 100) are below the total where required. -/
theorem C3_pagination_exact_total_witness :
    paginate_request (dataServer (List.range 150)) 2 = List.range 150 ∧
    (∀ o ∈ pageOffsets (dataServer (List.range 150)) 2,
      o = 0 ∨ o < (List.range 150).length) ∧
    (∀ (server : Nat → Except String (PageResponse Nat)) (f s : Nat)
        (acc : List Nat) (r : PageResponse Nat), server s = .ok r →
        r.total = none → r.results.length < pageSize →
        paginateLoop server (f + 1) s acc = (acc ++ r.results, [s])) :=
  C3_pagination_exact_total (List.range 150) 2 (by simp [pageSize])

set_option maxRecDepth 4096 in
/-- C1 (refuting the claimed error propagation): the source catches
every exception inside the loop, prints, breaks and returns the partial
list, so a run whose second page request fails returns the first 100
items as a plain list - bit-for-bit the same value an error-free fetch
of a complete 100-item dataset returns - and a run whose very first
request fails returns the same empty list as a successful fetch of an
empty dataset.  No error result reaches the caller, so a caller cannot
distinguish a complete result from a failed mid-fetch. -/
theorem C1_pagination_error_swallowed :
    paginate_request failServer 2 = List.range 100 ∧
    paginate_request failServer 2 = paginate_request (dataServer (List.range 100)) 2 ∧
    paginate_request downServer 2 = ([] : List Nat) ∧
    paginate_request downServer 2 = paginate_request (dataServer ([] : List Nat)) 2 := by
  refine ⟨by decide, by decide, by decide, by decide⟩

/-! ## Sum toolkit -/

theorem sumBy_nil (f : α → ℚ) : sumBy [] f = 0 := rfl

theorem sumBy_cons (x : α) (l : List α) (f : α → ℚ) :
    sumBy (x :: l) f = f x + sumBy l f := by
  simp [sumBy]

theorem sumBy_append (l₁ l₂ : List α) (f : α → ℚ) :
    sumBy (l₁ ++ l₂) f = sumBy l₁ f + sumBy l₂ f := by
  simp [sumBy]

theorem sumBy_congr {l : List α} {f g : α → ℚ} (h : ∀ x ∈ l, f x = g x) :
    sumBy l f = sumBy l g := by
  induction l with
  | nil => rfl
  | cons x l ih =>
    rw [sumBy_cons, sumBy_cons, h x (List.mem_cons_self x l),
      ih (fun y hy => h y (List.mem_cons_of_mem x hy))]

theorem sumBy_zero (l : List α) : sumBy l (fun _ => (0 : ℚ)) = 0 := by
  induction l with
  | nil => rfl
  | cons x l ih => rw [sumBy_cons, ih, add_zero]

theorem sumBy_add (l : List α) (f g : α → ℚ) :
    sumBy l (fun x => f x + g x) = sumBy l f + sumBy l g := by
  induction l with
  | nil => simp [sumBy_nil]
  | cons x l ih => rw [sumBy_cons, sumBy_cons, sumBy_cons, ih]; ring

theorem sumBy_mul_right (l : List α) (f : α → ℚ) (c : ℚ) :
    sumBy l (fun x => f x * c) = sumBy l f * c := by
  induction l with
  | nil => simp [sumBy_nil]
  | cons x l ih => rw [sumBy_cons, sumBy_cons, ih]; ring

theorem sumBy_nonneg {l : List α} {f : α → ℚ} (h : ∀ x ∈ l, 0 ≤ f x) :
    0 ≤ sumBy l f := by
  induction l with
  | nil => exact le_refl 0
  | cons x l ih =>
    rw [sumBy_cons]
    exact add_nonneg (h x (List.mem_cons_self x l))
      (ih (fun y hy => h y (List.mem_cons_of_mem x hy)))

theorem sumBy_map (l : List α) (g : α → β) (f : β → ℚ) :
    sumBy (l.map g) f = sumBy l (fun x => f (g x)) := by
  simp only [sumBy, List.map_map]
  rfl

theorem sumBy_perm {l₁ l₂ : List α} (h : l₁.Perm l₂) (f : α → ℚ) :
    sumBy l₁ f = sumBy l₂ f :=
  (h.map f).sum_eq

theorem sumBy_filter_split (l : List α) (p : α → Bool) (f : α → ℚ) :
    sumBy l f = sumBy (l.filter p) f + sumBy (l.filter (fun x => !p x)) f := by
  induction l with
  | nil => simp [sumBy_nil]
  | cons x l ih =>
    rw [sumBy_cons]
    by_cases hx : p x
    · rw [List.filter_cons_of_pos hx, List.filter_cons_of_neg (by simp [hx]),
        sumBy_cons, ih]
      ring
    · rw [List.filter_cons_of_neg (by simpa using hx),
        List.filter_cons_of_pos (by simpa using hx), sumBy_cons, ih]
      ring

theorem sumBy_if_single {K : List String} (hK : K.Nodup) (c : String) (v : ℚ) :
    sumBy K (fun k => if c = k then v else 0) = if c ∈ K then v else 0 := by
  induction K with
  | nil => simp [sumBy_nil]
  | cons k ks ih =>
    rw [sumBy_cons, ih hK.of_cons]
    by_cases hck : c = k
    · subst hck
      have hnot : c ∉ ks := (List.nodup_cons.mp hK).1
      simp [hnot]
    · simp [hck, List.mem_cons]

/-- Summing group totals over distinct keys that satisfy a predicate
equals summing the per-element values over the elements whose key
satisfies the predicate. -/
theorem sum_groups {α : Type} (keyOf : α → String) (f : α → ℚ) (p : String → Bool)
    (K : List String) (hK : K.Nodup) :
    ∀ l : List α, (∀ x ∈ l, keyOf x ∈ K) →
      sumBy (K.filter p) (fun k => sumBy (l.filter (fun x => keyOf x = k)) f) =
      sumBy (l.filter (fun x => p (keyOf x))) f := by
  intro l
  induction l with
  | nil =>
    intro _
    rw [List.filter_nil]
    rw [sumBy_congr (fun k _ => by rw [List.filter_nil, sumBy_nil])]
    exact sumBy_zero _
  | cons x l ih =>
    intro hcov
    have hx : keyOf x ∈ K := hcov x (List.mem_cons_self x l)
    have hl : ∀ y ∈ l, keyOf y ∈ K := fun y hy => hcov y (List.mem_cons_of_mem x hy)
    have hsplit : ∀ k ∈ K.filter p,
        sumBy ((x :: l).filter (fun y => keyOf y = k)) f =
        (if keyOf x = k then f x else 0) + sumBy (l.filter (fun y => keyOf y = k)) f := by
      intro k _
      by_cases hxk : keyOf x = k
      · rw [List.filter_cons_of_pos (by simpa using hxk), sumBy_cons, if_pos hxk]
      · rw [List.filter_cons_of_neg (by simpa using hxk), if_neg hxk, zero_add]
    rw [sumBy_congr hsplit, sumBy_add, sumBy_if_single (hK.filter p) (keyOf x) (f x),
      ih hl]
    by_cases hpx : p (keyOf x)
    · rw [if_pos (List.mem_filter.mpr ⟨by simpa using hx, hpx⟩),
        List.filter_cons_of_pos (by simpa using hpx), sumBy_cons]
    · rw [if_neg (fun hmem => hpx (List.mem_filter.mp hmem).2),
        List.filter_cons_of_neg (by simpa using hpx), zero_add]

/-! ## Grouping-loop lemmas -/

@[simp] theorem bumpEpic_epic_key (e : EpicRec) (i : Issue) :
    (bumpEpic e i).epic_key = e.epic_key := by
  simp only [bumpEpic]
  split_ifs <;> rfl

@[simp] theorem bumpEpic_epic_name (e : EpicRec) (i : Issue) :
    (bumpEpic e i).epic_name = e.epic_name := by
  simp only [bumpEpic]
  split_ifs <;> rfl

@[simp] theorem bumpEpic_percentage (e : EpicRec) (i : Issue) :
    (bumpEpic e i).percentage = e.percentage := by
  simp only [bumpEpic]
  split_ifs <;> rfl

theorem bumpEpic_done (e : EpicRec) (i : Issue) :
    (bumpEpic e i).done_points = e.done_points + donePts i := by
  simp only [bumpEpic, donePts]
  split_ifs <;> simp

theorem bumpEpic_inProg (e : EpicRec) (i : Issue) :
    (bumpEpic e i).in_progress_points = e.in_progress_points + inProgPts i := by
  simp only [bumpEpic, inProgPts]
  split_ifs <;> simp

theorem bumpEpic_toDo (e : EpicRec) (i : Issue) :
    (bumpEpic e i).to_do_points = e.to_do_points + toDoPts i := by
  simp only [bumpEpic, toDoPts]
  split_ifs <;> simp

theorem bumpEpic_total (e : EpicRec) (i : Issue) :
    (bumpEpic e i).total_points = e.total_points + pts0 i := by
  simp only [bumpEpic]
  split_ifs <;> rfl

theorem updateEpic_keys (k : String) (i : Issue) (l : List EpicRec) :
    (updateEpic k i l).map (fun e => e.epic_key) = l.map (fun e => e.epic_key) := by
  induction l with
  | nil => rfl
  | cons e es ih =>
    simp only [updateEpic]
    split_ifs with h
    · simp
    · simp [ih]

theorem mem_updateEpic {k : String} {i : Issue} {l : List EpicRec}
    (hnd : (l.map (fun e => e.epic_key)).Nodup) (x : EpicRec) :
    x ∈ updateEpic k i l ↔
      ∃ e ∈ l, x = if e.epic_key = k then bumpEpic e i else e := by
  induction l with
  | nil => simp [updateEpic]
  | cons e es ih =>
    rw [List.map_cons, List.nodup_cons] at hnd
    simp only [updateEpic]
    split_ifs with h
    · constructor
      · intro hx
        rcases List.mem_cons.mp hx with rfl | hx
        · exact ⟨e, List.mem_cons_self e es, by rw [if_pos h]⟩
        · refine ⟨x, List.mem_cons_of_mem e hx, ?_⟩
          rw [if_neg]
          intro hxk
          exact hnd.1 (by rw [h, ← hxk]; exact List.mem_map_of_mem _ hx)
      · rintro ⟨e', he', rfl⟩
        rcases List.mem_cons.mp he' with rfl | he'
        · rw [if_pos h]; exact List.mem_cons_self _ _
        · rw [if_neg]
          · exact List.mem_cons_of_mem _ he'
          · intro hek
            exact hnd.1 (by rw [h, ← hek]; exact List.mem_map_of_mem _ he')
    · constructor
      · intro hx
        rcases List.mem_cons.mp hx with rfl | hx
        · exact ⟨x, List.mem_cons_self x es, by rw [if_neg h]⟩
        · rcases (ih hnd.2 ).mp hx with ⟨e', he', hx'⟩
          exact ⟨e', List.mem_cons_of_mem e he', hx'⟩
      · rintro ⟨e', he', rfl⟩
        rcases List.mem_cons.mp he' with rfl | he'
        · rw [if_neg h]; exact List.mem_cons_self _ _
        · exact List.mem_cons_of_mem e ((ih hnd.2).mpr ⟨e', he', rfl⟩)

/-- Appending one issue to the processed prefix shifts every per-key
filtered sum by the contribution of that issue when the key matches. -/
theorem sumBy_keyFilter_append (done : List Issue) (i : Issue) (k : String)
    (f : Issue → ℚ) :
    sumBy ((done ++ [i]).filter (fun j => epicKeyOf j = k)) f =
      sumBy (done.filter (fun j => epicKeyOf j = k)) f +
        (if epicKeyOf i = k then f i else 0) := by
  rw [List.filter_append, sumBy_append]
  by_cases h : epicKeyOf i = k
  · rw [List.filter_cons_of_pos (by simpa using h), List.filter_nil,
      sumBy_cons, sumBy_nil, if_pos h, add_zero]
  · rw [List.filter_cons_of_neg (by simpa using h), List.filter_nil,
      sumBy_nil, if_neg h]

/-- A key no processed issue carries has zero filtered sum. -/
theorem sumBy_keyFilter_zero (done : List Issue) (k : String) (f : Issue → ℚ)
    (h : ∀ j ∈ done, epicKeyOf j ≠ k) :
    sumBy (done.filter (fun j => epicKeyOf j = k)) f = 0 := by
  have : done.filter (fun j => epicKeyOf j = k) = [] :=
    List.filter_eq_nil_iff.mpr (fun j hj => by simpa using h j hj)
  rw [this, sumBy_nil]

/-- Updating the entry whose key is the key of the processed issue preserves the loop
invariant, extending the processed prefix by that issue. -/
theorem updateEpic_ok {acc : List EpicRec} {done : List Issue} {i : Issue}
    (h : EpicAccOk acc done)
    (hk : epicKeyOf i ∈ acc.map (fun e => e.epic_key)) :
    EpicAccOk (updateEpic (epicKeyOf i) i acc) (done ++ [i]) := by
  obtain ⟨hnd, hent, hcov⟩ := h
  refine ⟨by rw [updateEpic_keys]; exact hnd, ?_, ?_⟩
  · intro x hx
    rcases (mem_updateEpic hnd x).mp hx with ⟨e, he, rfl⟩
    have hee := hent e he
    obtain ⟨h1, h2, h3, h4⟩ := hee
    by_cases hek : e.epic_key = epicKeyOf i
    · rw [if_pos hek]
      refine ⟨?_, ?_, ?_, ?_⟩
      · rw [bumpEpic_done, bumpEpic_epic_key, h1, epicDone, epicDone,
          sumBy_keyFilter_append, if_pos hek.symm]
      · rw [bumpEpic_inProg, bumpEpic_epic_key, h2, epicInProg, epicInProg,
          sumBy_keyFilter_append, if_pos hek.symm]
      · rw [bumpEpic_toDo, bumpEpic_epic_key, h3, epicToDo, epicToDo,
          sumBy_keyFilter_append, if_pos hek.symm]
      · rw [bumpEpic_total, bumpEpic_epic_key, h4, epicTotal, epicTotal,
          sumBy_keyFilter_append, if_pos hek.symm]
    · rw [if_neg hek]
      have hne : ¬ epicKeyOf i = e.epic_key := fun hc => hek hc.symm
      refine ⟨?_, ?_, ?_, ?_⟩
      · rw [h1, epicDone, epicDone, sumBy_keyFilter_append, if_neg hne, add_zero]
      · rw [h2, epicInProg, epicInProg, sumBy_keyFilter_append, if_neg hne, add_zero]
      · rw [h3, epicToDo, epicToDo, sumBy_keyFilter_append, if_neg hne, add_zero]
      · rw [h4, epicTotal, epicTotal, sumBy_keyFilter_append, if_neg hne, add_zero]
  · intro j hj
    rw [updateEpic_keys]
    rcases List.mem_append.mp hj with hj | hj
    · exact hcov j hj
    · rw [List.mem_singleton] at hj
      subst hj
      exact hk

/-- One loop iteration of `calculate_epic_progress` preserves the
invariant. -/
theorem addIssueEpic_ok {acc : List EpicRec} {done : List Issue} (i : Issue)
    (h : EpicAccOk acc done) :
    EpicAccOk (addIssueEpic acc i) (done ++ [i]) := by
  obtain ⟨hnd, hent, hcov⟩ := h
  simp only [addIssueEpic]
  by_cases hany : acc.any (fun e => e.epic_key = epicKeyOf i) = true
  · rw [if_pos hany]
    refine updateEpic_ok ⟨hnd, hent, hcov⟩ ?_
    rcases List.any_eq_true.mp hany with ⟨e, he, hdec⟩
    have : e.epic_key = epicKeyOf i := of_decide_eq_true hdec
    rw [← this]
    exact List.mem_map_of_mem _ he
  · rw [if_neg hany]
    have hknot : epicKeyOf i ∉ acc.map (fun e => e.epic_key) := by
      intro hmem
      rcases List.mem_map.mp hmem with ⟨e, he, hke⟩
      exact hany (List.any_eq_true.mpr ⟨e, he, decide_eq_true hke⟩)
    have hfresh : ∀ j ∈ done, epicKeyOf j ≠ epicKeyOf i := by
      intro j hj hc
      exact hknot (hc ▸ hcov j hj)
    refine updateEpic_ok ⟨?_, ?_, ?_⟩ ?_
    · rw [List.map_append]
      refine List.Nodup.append hnd (List.nodup_singleton _) ?_
      intro a ha hb
      rw [List.map_singleton, List.mem_singleton] at hb
      subst hb
      exact hknot ha
    · intro x hx
      rcases List.mem_append.mp hx with hx | hx
      · exact hent x hx
      · rw [List.mem_singleton] at hx
        subst hx
        exact ⟨(sumBy_keyFilter_zero done _ donePts hfresh).symm,
          (sumBy_keyFilter_zero done _ inProgPts hfresh).symm,
          (sumBy_keyFilter_zero done _ toDoPts hfresh).symm,
          (sumBy_keyFilter_zero done _ pts0 hfresh).symm⟩
    · intro j hj
      rw [List.map_append]
      exact List.mem_append_left _ (hcov j hj)
    · rw [List.map_append, List.map_singleton]
      exact List.mem_append_right _ (List.mem_singleton_self _)

/-- The grouping loop of `calculate_epic_progress` satisfies its
invariant on the full issue list. -/
theorem epicData_ok (issues : List Issue) : EpicAccOk (epicData issues) issues := by
  have main : ∀ (rest : List Issue) (acc : List EpicRec) (done : List Issue),
      EpicAccOk acc done → EpicAccOk (rest.foldl addIssueEpic acc) (done ++ rest) := by
    intro rest
    induction rest with
    | nil =>
      intro acc done h
      simpa using h
    | cons i rest ih =>
      intro acc done h
      rw [List.foldl_cons]
      have := ih (addIssueEpic acc i) (done ++ [i]) (addIssueEpic_ok i h)
      simpa [List.append_assoc] using this
  have h0 : EpicAccOk [] [] :=
    ⟨by simp, fun e he => absurd he (List.not_mem_nil e),
      fun i hi => absurd hi (List.not_mem_nil i)⟩
  have := main issues [] [] h0
  simpa [epicData] using this

/-- Descending insertion produces a permutation of consing. -/
theorem insertByPct_perm (x : EpicRec) (l : List EpicRec) :
    (insertByPct x l).Perm (x :: l) := by
  induction l with
  | nil => exact List.Perm.refl _
  | cons y ys ih =>
    simp only [insertByPct]
    split_ifs with h
    · exact List.Perm.refl _
    · exact ((ih.cons y).trans (List.Perm.swap x y ys))

/-- The stable descending sort is a permutation of its input. -/
theorem sortByPctDesc_perm (l : List EpicRec) : (sortByPctDesc l).Perm l := by
  induction l with
  | nil => exact List.Perm.refl _
  | cons x xs ih =>
    simp only [sortByPctDesc, List.foldr_cons]
    exact (insertByPct_perm x _).trans (ih.cons x)

/-- Membership in the output of `calculate_epic_progress` is membership
in the percentage-decorated filtered grouping. -/
theorem mem_calculate_epic_progress {issues : List Issue} {r : EpicRec} :
    r ∈ calculate_epic_progress issues ↔
      r ∈ ((epicData issues).filter (fun e => 0 < e.total_points)).map setPercentage := by
  exact (sortByPctDesc_perm _).mem_iff

/-- Pointwise split of the points of an issue over the three buckets. -/
theorem donePts_add_inProg_add_toDo (i : Issue) :
    donePts i + inProgPts i + toDoPts i = pts0 i := by
  simp only [donePts, inProgPts, toDoPts]
  split_ifs <;> ring

/-- Per-key version of the bucket split. -/
theorem epicDone_add_inProg_add_toDo (issues : List Issue) (k : String) :
    epicDone issues k + epicInProg issues k + epicToDo issues k =
      epicTotal issues k := by
  simp only [epicDone, epicInProg, epicToDo, epicTotal]
  rw [← sumBy_add, ← sumBy_add]
  exact sumBy_congr (fun x _ => donePts_add_inProg_add_toDo x)

@[simp] theorem setPercentage_epic_key (e : EpicRec) :
    (setPercentage e).epic_key = e.epic_key := rfl

@[simp] theorem setPercentage_done (e : EpicRec) :
    (setPercentage e).done_points = e.done_points := rfl

@[simp] theorem setPercentage_inProg (e : EpicRec) :
    (setPercentage e).in_progress_points = e.in_progress_points := rfl

@[simp] theorem setPercentage_toDo (e : EpicRec) :
    (setPercentage e).to_do_points = e.to_do_points := rfl

@[simp] theorem setPercentage_total (e : EpicRec) :
    (setPercentage e).total_points = e.total_points := rfl

/-- C2: every record returned by `calculate_epic_progress` satisfies
`total = done + in_progress + to_do`; consequently the two column sums
over the returned records agree, and they also equal the sum of the
story points (null coerced to 0) of exactly those input issues whose
epic has a positive per-epic total. -/
theorem C2_epic_progress_sums (issues : List Issue) :
    (∀ r ∈ calculate_epic_progress issues,
      r.total_points = r.done_points + r.in_progress_points + r.to_do_points) ∧
    sumBy (calculate_epic_progress issues) (fun r => r.total_points) =
      sumBy (calculate_epic_progress issues)
        (fun r => r.done_points + r.in_progress_points + r.to_do_points) ∧
    sumBy (calculate_epic_progress issues) (fun r => r.total_points) =
      sumBy (issues.filter (fun i => 0 < epicTotal issues (epicKeyOf i))) pts0 := by
  obtain ⟨hnd, hent, hcov⟩ := epicData_ok issues
  have hpart1 : ∀ r ∈ calculate_epic_progress issues,
      r.total_points = r.done_points + r.in_progress_points + r.to_do_points := by
    intro r hr
    rcases List.mem_map.mp (mem_calculate_epic_progress.mp hr) with ⟨e, he, rfl⟩
    have he' := hent e (List.mem_filter.mp he).1
    obtain ⟨h1, h2, h3, h4⟩ := he'
    simp only [setPercentage_total, setPercentage_done, setPercentage_inProg,
      setPercentage_toDo, h1, h2, h3, h4]
    exact (epicDone_add_inProg_add_toDo issues e.epic_key).symm
  refine ⟨hpart1, sumBy_congr hpart1, ?_⟩
  have hperm := sortByPctDesc_perm
    (((epicData issues).filter (fun e => 0 < e.total_points)).map setPercentage)
  rw [calculate_epic_progress, sumBy_perm hperm, sumBy_map]
  have hfine : ((epicData issues).filter (fun e => 0 < e.total_points)) =
      ((epicData issues).filter (fun e => 0 < epicTotal issues e.epic_key)) := by
    refine List.filter_congr ?_
    intro e he
    obtain ⟨_, _, _, h4⟩ := hent e he
    rw [h4]
  rw [hfine]
  have hmapf : sumBy ((epicData issues).filter
      (fun e => 0 < epicTotal issues e.epic_key))
      (fun e => (setPercentage e).total_points) =
      sumBy ((epicData issues).filter
        (fun e => 0 < epicTotal issues e.epic_key))
        (fun e => epicTotal issues e.epic_key) := by
    refine sumBy_congr ?_
    intro e he
    obtain ⟨_, _, _, h4⟩ := hent e (List.mem_filter.mp he).1
    rw [setPercentage_total, h4]
  rw [hmapf]
  have hcomm : ((epicData issues).filter
      (fun e => 0 < epicTotal issues e.epic_key)).map (fun e => e.epic_key) =
      ((epicData issues).map (fun e => e.epic_key)).filter
        (fun k => 0 < epicTotal issues k) := by
    induction epicData issues with
    | nil => rfl
    | cons e es ih =>
      by_cases h : 0 < epicTotal issues e.epic_key
      · rw [List.filter_cons_of_pos (by simpa using h), List.map_cons,
          List.map_cons, List.filter_cons_of_pos (by simpa using h), ih]
      · rw [List.filter_cons_of_neg (by simpa using h), List.map_cons,
          List.filter_cons_of_neg (by simpa using h), ih]
  have hkey : sumBy ((epicData issues).filter
      (fun e => 0 < epicTotal issues e.epic_key))
      (fun e => epicTotal issues e.epic_key) =
      sumBy (((epicData issues).map (fun e => e.epic_key)).filter
        (fun k => 0 < epicTotal issues k)) (fun k => epicTotal issues k) := by
    rw [← hcomm, sumBy_map]
  rw [hkey]
  have hcov' : ∀ i ∈ issues, epicKeyOf i ∈ (epicData issues).map (fun e => e.epic_key) :=
    hcov
  exact sum_groups epicKeyOf pts0 (fun k => 0 < epicTotal issues k)
    ((epicData issues).map (fun e => e.epic_key)) hnd issues hcov'

@[simp] theorem setPercentage_percentage (e : EpicRec) :
    (setPercentage e).percentage =
      if 0 < e.total_points then e.done_points / e.total_points * 100 else 0 := rfl

/-- C7: `calculate_epic_progress` never returns a record whose
`total_points` is 0 - every returned record has a strictly positive
total equal to the summed story points of its epic, so a zero-total epic
group has no record at all - and the percentage of every returned
record is computed by `done / total * 100` with `total > 0`. -/
theorem C7_no_zero_total_records (issues : List Issue) :
    ∀ r ∈ calculate_epic_progress issues,
      0 < r.total_points ∧
      r.total_points = epicTotal issues r.epic_key ∧
      (∀ k, epicTotal issues k = 0 → r.epic_key ≠ k) ∧
      r.percentage = r.done_points / r.total_points * 100 := by
  obtain ⟨_, hent, _⟩ := epicData_ok issues
  intro r hr
  rcases List.mem_map.mp (mem_calculate_epic_progress.mp hr) with ⟨e, he, rfl⟩
  obtain ⟨hemem, hepos⟩ := List.mem_filter.mp he
  have hpos : 0 < e.total_points := by simpa using hepos
  obtain ⟨_, _, _, h4⟩ := hent e hemem
  refine ⟨by simpa using hpos, ?_, ?_, ?_⟩
  · rw [setPercentage_total, setPercentage_epic_key, h4]
  · intro k hk hck
    rw [setPercentage_epic_key] at hck
    rw [hck, hk] at h4
    exact absurd (h4 ▸ hpos) (lt_irrefl 0)
  · rw [setPercentage_percentage, setPercentage_total, setPercentage_done,
      if_pos hpos]

/-- Evaluation of the end-to-end scenario: Epic A yields one record with
`done=5, in_progress=5, to_do=0, total=10, percentage=50`; Epic B is
dropped for its zero total. -/
theorem calculate_epic_progress_example :
    calculate_epic_progress exampleIssues = [exampleEpicRec] := by
  norm_num [calculate_epic_progress, exampleIssues, exampleEpicRec, epicData,
    addIssueEpic, updateEpic, bumpEpic, epicKeyOf, epicNameOf, pts0,
    truncate_epic_name, setPercentage, sortByPctDesc, insertByPct,
    show ("In Progress" = "Done") = False from by decide,
    show ("To Do" = "Done") = False from by decide,
    show ("To Do" = "In Progress") = False from by decide,
    show ("EB" = "EA") = False from by decide,
    show ("Epic A" = "") = False from by decide,
    show ("Epic B" = "") = False from by decide,
    show ("Epic A".length ≤ 40) = True from by decide,
    show ("Epic B".length ≤ 40) = True from by decide]

/-- Witness for C2 on the concrete scenario: the returned record indeed
satisfies the bucket identity. -/
theorem C2_epic_progress_sums_witness :
    exampleEpicRec ∈ calculate_epic_progress exampleIssues ∧
    exampleEpicRec.total_points =
      exampleEpicRec.done_points + exampleEpicRec.in_progress_points +
        exampleEpicRec.to_do_points := by
  have hmem : exampleEpicRec ∈ calculate_epic_progress exampleIssues := by
    rw [calculate_epic_progress_example]
    exact List.mem_singleton_self _
  exact ⟨hmem, (C2_epic_progress_sums exampleIssues).1 exampleEpicRec hmem⟩

/-- Witness for C7 on the concrete scenario record. -/
theorem C7_no_zero_total_records_witness :
    0 < exampleEpicRec.total_points ∧
    exampleEpicRec.total_points = epicTotal exampleIssues exampleEpicRec.epic_key ∧
    (∀ k, epicTotal exampleIssues k = 0 → exampleEpicRec.epic_key ≠ k) ∧
    exampleEpicRec.percentage =
      exampleEpicRec.done_points / exampleEpicRec.total_points * 100 := by
  have hmem : exampleEpicRec ∈ calculate_epic_progress exampleIssues := by
    rw [calculate_epic_progress_example]
    exact List.mem_singleton_self _
  exact C7_no_zero_total_records exampleIssues exampleEpicRec hmem

/-! ## Sprint-composition lemmas -/

theorem updateComp_keys (k : String) (p : ℚ) (l : List CompRec) :
    (updateComp k p l).map (fun e => e.epic_key) = l.map (fun e => e.epic_key) := by
  induction l with
  | nil => rfl
  | cons e es ih =>
    simp only [updateComp]
    split_ifs with h
    · simp
    · simp [ih]

theorem mem_updateComp {k : String} {p : ℚ} {l : List CompRec}
    (hnd : (l.map (fun e => e.epic_key)).Nodup) (x : CompRec) :
    x ∈ updateComp k p l ↔
      ∃ e ∈ l, x = if e.epic_key = k
        then { e with total_points := e.total_points + p } else e := by
  induction l with
  | nil => simp [updateComp]
  | cons e es ih =>
    rw [List.map_cons, List.nodup_cons] at hnd
    simp only [updateComp]
    split_ifs with h
    · constructor
      · intro hx
        rcases List.mem_cons.mp hx with rfl | hx
        · exact ⟨e, List.mem_cons_self e es, by rw [if_pos h]⟩
        · refine ⟨x, List.mem_cons_of_mem e hx, ?_⟩
          rw [if_neg]
          intro hxk
          exact hnd.1 (by rw [h, ← hxk]; exact List.mem_map_of_mem _ hx)
      · rintro ⟨e', he', rfl⟩
        rcases List.mem_cons.mp he' with rfl | he'
        · rw [if_pos h]
          exact List.mem_cons_self _ _
        · rw [if_neg]
          · exact List.mem_cons_of_mem _ he'
          · intro hek
            exact hnd.1 (by rw [h, ← hek]; exact List.mem_map_of_mem _ he')
    · constructor
      · intro hx
        rcases List.mem_cons.mp hx with rfl | hx
        · exact ⟨x, List.mem_cons_self x es, by rw [if_neg h]⟩
        · rcases (ih hnd.2).mp hx with ⟨e', he', hx'⟩
          exact ⟨e', List.mem_cons_of_mem e he', hx'⟩
      · rintro ⟨e', he', rfl⟩
        rcases List.mem_cons.mp he' with rfl | he'
        · rw [if_neg h]
          exact List.mem_cons_self _ _
        · exact List.mem_cons_of_mem e ((ih hnd.2).mpr ⟨e', he', rfl⟩)

/-- One loop iteration of `calculate_sprint_composition` preserves the
invariant. -/
theorem addIssueComp_ok {acc : List CompRec} {done : List Issue} (i : Issue)
    (h : CompAccOk acc done) :
    CompAccOk (addIssueComp acc i) (done ++ [i]) := by
  obtain ⟨hnd, hent, hcov⟩ := h
  have hstep : ∀ (acc₂ : List CompRec),
      (acc₂.map (fun e => e.epic_key)).Nodup →
      (∀ e ∈ acc₂, e.total_points = epicTotal done e.epic_key) →
      (∀ j ∈ done, epicKeyOf j ∈ acc₂.map (fun e => e.epic_key)) →
      epicKeyOf i ∈ acc₂.map (fun e => e.epic_key) →
      CompAccOk (updateComp (epicKeyOf i) (pts0 i) acc₂) (done ++ [i]) := by
    intro acc₂ hnd₂ hent₂ hcov₂ hk₂
    refine ⟨by rw [updateComp_keys]; exact hnd₂, ?_, ?_⟩
    · intro x hx
      rcases (mem_updateComp hnd₂ x).mp hx with ⟨e, he, rfl⟩
      have he' := hent₂ e he
      by_cases hek : e.epic_key = epicKeyOf i
      · rw [if_pos hek]
        show e.total_points + pts0 i = epicTotal (done ++ [i]) e.epic_key
        rw [he', epicTotal, epicTotal, sumBy_keyFilter_append, if_pos hek.symm]
      · rw [if_neg hek]
        have hne : ¬ epicKeyOf i = e.epic_key := fun hc => hek hc.symm
        rw [he', epicTotal, epicTotal, sumBy_keyFilter_append, if_neg hne, add_zero]
    · intro j hj
      rw [updateComp_keys]
      rcases List.mem_append.mp hj with hj | hj
      · exact hcov₂ j hj
      · rw [List.mem_singleton] at hj
        subst hj
        exact hk₂
  simp only [addIssueComp]
  by_cases hany : acc.any (fun e => e.epic_key = epicKeyOf i) = true
  · rw [if_pos hany]
    refine hstep acc hnd hent hcov ?_
    rcases List.any_eq_true.mp hany with ⟨e, he, hdec⟩
    have : e.epic_key = epicKeyOf i := of_decide_eq_true hdec
    rw [← this]
    exact List.mem_map_of_mem _ he
  · rw [if_neg hany]
    have hknot : epicKeyOf i ∉ acc.map (fun e => e.epic_key) := by
      intro hmem
      rcases List.mem_map.mp hmem with ⟨e, he, hke⟩
      exact hany (List.any_eq_true.mpr ⟨e, he, decide_eq_true hke⟩)
    have hfresh : ∀ j ∈ done, epicKeyOf j ≠ epicKeyOf i := by
      intro j hj hc
      exact hknot (hc ▸ hcov j hj)
    refine hstep _ ?_ ?_ ?_ ?_
    · rw [List.map_append]
      refine List.Nodup.append hnd (List.nodup_singleton _) ?_
      intro a ha hb
      rw [List.map_singleton, List.mem_singleton] at hb
      subst hb
      exact hknot ha
    · intro x hx
      rcases List.mem_append.mp hx with hx | hx
      · exact hent x hx
      · rw [List.mem_singleton] at hx
        subst hx
        exact (sumBy_keyFilter_zero done _ pts0 hfresh).symm
    · intro j hj
      rw [List.map_append]
      exact List.mem_append_left _ (hcov j hj)
    · rw [List.map_append, List.map_singleton]
      exact List.mem_append_right _ (List.mem_singleton_self _)

/-- The grouping loop of `calculate_sprint_composition` satisfies its
invariant on the full issue list. -/
theorem compData_ok (issues : List Issue) : CompAccOk (compData issues) issues := by
  have main : ∀ (rest : List Issue) (acc : List CompRec) (done : List Issue),
      CompAccOk acc done → CompAccOk (rest.foldl addIssueComp acc) (done ++ rest) := by
    intro rest
    induction rest with
    | nil =>
      intro acc done h
      simpa using h
    | cons i rest ih =>
      intro acc done h
      rw [List.foldl_cons]
      have := ih (addIssueComp acc i) (done ++ [i]) (addIssueComp_ok i h)
      simpa [List.append_assoc] using this
  have h0 : CompAccOk [] [] :=
    ⟨by simp, fun e he => absurd he (List.not_mem_nil e),
      fun i hi => absurd hi (List.not_mem_nil i)⟩
  have := main issues [] [] h0
  simpa [compData] using this

/-- The running `sprint_total` accumulator equals the plain sum of the
null-coerced story points. -/
theorem sprintTotal_eq_sumBy (issues : List Issue) :
    sprintTotal issues = sumBy issues pts0 := by
  have main : ∀ (l : List Issue) (c : ℚ),
      l.foldl (fun s i => s + pts0 i) c = c + sumBy l pts0 := by
    intro l
    induction l with
    | nil => intro c; simp [sumBy_nil]
    | cons i l ih =>
      intro c
      rw [List.foldl_cons, ih, sumBy_cons]
      ring
  rw [sprintTotal, main, zero_add]

/-- C10: when all story-point values are nonnegative and the sprint
total is positive, the percentage shares returned by
`calculate_sprint_composition` sum to exactly 100, because every dropped
group contributes zero points and the share of each kept record is its total
divided by the sprint total times 100. -/
theorem C10_composition_percentages_sum (issues : List Issue)
    (hnn : ∀ i ∈ issues, 0 ≤ pts0 i) (hpos : 0 < sprintTotal issues) :
    sumBy (calculate_sprint_composition issues) (fun r => r.percentage) = 100 := by
  obtain ⟨hnd, hent, hcov⟩ := compData_ok issues
  have hSne : sprintTotal issues ≠ 0 := ne_of_gt hpos
  simp only [calculate_sprint_composition]
  rw [sumBy_map]
  have hshape : sumBy ((compData issues).filter (fun e => 0 < e.total_points))
      (fun e => ({ e with percentage :=
          if 0 < sprintTotal issues
          then e.total_points / sprintTotal issues * 100 else 0 } : CompRec).percentage) =
      sumBy ((compData issues).filter (fun e => 0 < e.total_points))
        (fun e => e.total_points * (100 / sprintTotal issues)) := by
    refine sumBy_congr ?_
    intro e _
    show (if 0 < sprintTotal issues
        then e.total_points / sprintTotal issues * 100 else 0) =
      e.total_points * (100 / sprintTotal issues)
    rw [if_pos hpos, div_mul_eq_mul_div, mul_div_assoc]
  rw [hshape, sumBy_mul_right]
  have hall : sumBy (compData issues) (fun e => e.total_points) =
      sumBy issues pts0 := by
    have h1 : sumBy (compData issues) (fun e => e.total_points) =
        sumBy (compData issues) (fun e => epicTotal issues e.epic_key) :=
      sumBy_congr (fun e he => hent e he)
    have h2 : sumBy (compData issues) (fun e => epicTotal issues e.epic_key) =
        sumBy ((compData issues).map (fun e => e.epic_key))
          (fun k => epicTotal issues k) := (sumBy_map _ _ _).symm
    have h3 := sum_groups epicKeyOf pts0 (fun _ => true)
      ((compData issues).map (fun e => e.epic_key)) hnd issues hcov
    rw [List.filter_true] at h3
    have h4 : issues.filter (fun x => (fun _ => true) (epicKeyOf x)) = issues := by
      rw [List.filter_true]
    rw [h4] at h3
    rw [h1, h2, ← h3]
    refine sumBy_congr ?_
    intro k _
    rw [epicTotal]
  have hnegpart : sumBy ((compData issues).filter
      (fun e => !(decide (0 < e.total_points)))) (fun e => e.total_points) = 0 := by
    have hzero : ∀ e ∈ (compData issues).filter
        (fun e => !(decide (0 < e.total_points))), e.total_points = 0 := by
      intro e he
      obtain ⟨hemem, heneg⟩ := List.mem_filter.mp he
      have hnle : ¬ 0 < e.total_points := by simpa using heneg
      have hge : 0 ≤ e.total_points := by
        rw [hent e hemem, epicTotal]
        refine sumBy_nonneg ?_
        intro x hx
        exact hnn x (List.mem_filter.mp hx).1
      exact le_antisymm (not_lt.mp hnle) hge
    rw [sumBy_congr hzero]
    exact sumBy_zero _
  have hsplit := sumBy_filter_split (compData issues)
    (fun e => decide (0 < e.total_points)) (fun e => e.total_points)
  rw [hall, hnegpart, add_zero] at hsplit
  rw [← hsplit, ← sprintTotal_eq_sumBy, mul_comm,
    div_mul_cancel₀ (100 : ℚ) hSne]

/-- Witness for C10 on the concrete scenario: the single returned share
is 100 percent. -/
theorem C10_composition_percentages_sum_witness :
    sumBy (calculate_sprint_composition exampleIssues) (fun r => r.percentage) = 100 := by
  refine C10_composition_percentages_sum exampleIssues ?_ ?_
  · intro i hi
    fin_cases hi <;> norm_num [pts0]
  · rw [sprintTotal_eq_sumBy]
    norm_num [exampleIssues, sumBy_cons, sumBy_nil, pts0]

/-! ## Story-points claim (C4) -/

/-- C4 counterexample: with the primary field holding the numeric value
-1 and the estimate field null, `get_story_points` returns the single
non-null value -1, which is negative - the claimed invariant
"the result is always ... >= 0" fails on numeric-or-null inputs. -/
theorem C4_negative_counterexample :
    get_story_points (some (-1)) none = -1 ∧
    ¬ 0 ≤ get_story_points (some (-1)) none := by
  constructor <;> norm_num [get_story_points]

/-- C4 as amended: the precedence behaviour is as claimed - both null
gives 0, both present gives the value of the primary field, exactly one
present gives that value - and the result is nonnegative provided the
present field values are nonnegative (a negative field value is
returned as-is, so unrestricted nonnegativity fails). -/
theorem C4_story_points_precedence (sp sp_est : Option ℚ) :
    (sp = none → sp_est = none → get_story_points sp sp_est = 0) ∧
    (∀ a b : ℚ, sp = some a → sp_est = some b → get_story_points sp sp_est = a) ∧
    (∀ a : ℚ, sp = some a → sp_est = none → get_story_points sp sp_est = a) ∧
    (∀ b : ℚ, sp = none → sp_est = some b → get_story_points sp sp_est = b) ∧
    ((∀ a : ℚ, sp = some a → 0 ≤ a) → (∀ b : ℚ, sp_est = some b → 0 ≤ b) →
      0 ≤ get_story_points sp sp_est) := by
  cases sp with
  | none =>
    cases sp_est with
    | none =>
      refine ⟨fun _ _ => rfl, ?_, ?_, ?_, fun _ _ => le_refl 0⟩ <;>
        (intros; simp_all)
    | some b =>
      refine ⟨by simp, by simp, by simp, ?_, ?_⟩
      · intro b' _ hb'
        have hb : b' = b := by simp_all
        subst hb
        simp only [get_story_points]
        split_ifs with h
        · rfl
        · rw [not_ne_iff.mp h]
      · intro _ hb
        have := hb b rfl
        simp only [get_story_points]
        split_ifs <;> simp_all
  | some a =>
    cases sp_est with
    | none =>
      refine ⟨by simp, by simp, ?_, by simp, ?_⟩
      · intro a' ha' _
        have ha : a' = a := by simp_all
        subst ha
        simp only [get_story_points]
        split_ifs with h
        · rfl
        · rw [not_ne_iff.mp h]
      · intro ha _
        have := ha a rfl
        simp only [get_story_points]
        split_ifs <;> simp_all
    | some b =>
      refine ⟨by simp, ?_, by simp, by simp, ?_⟩
      · intro a' b' ha' _
        have ha : a' = a := by simp_all
        subst ha
        simp only [get_story_points]
        split_ifs with h
        · rfl
        · rw [not_ne_iff.mp h]
      · intro ha _
        have := ha a rfl
        simp only [get_story_points]
        split_ifs <;> simp_all

/-- Witness for the amended C4 at concrete inputs: with both fields
present (3 and 2) the primary value 3 wins and the result is
nonnegative. -/
theorem C4_story_points_precedence_witness :
    get_story_points (some 3) (some 2) = 3 ∧
    0 ≤ get_story_points (some 3) (some 2) := by
  refine ⟨(C4_story_points_precedence (some 3) (some 2)).2.1 3 2 rfl rfl, ?_⟩
  refine (C4_story_points_precedence (some 3) (some 2)).2.2.2.2 ?_ ?_
  · rintro a ha
    have : a = 3 := by simp_all
    subst this
    norm_num
  · rintro b hb
    have : b = 2 := by simp_all
    subst this
    norm_num

/-! ## Timestamp claims (C8, C6) -/

/-- The character at the length of the left part of an append is the
head of the right part. -/
theorem getD_append_length (A B : List Char) (c d : Char) :
    (A ++ c :: B).getD A.length d = c := by
  induction A with
  | nil => rfl
  | cons a A ih => simpa [List.getD_cons_succ] using ih

/-- C8: the timezone-colon fix rewrites an offset lacking its colon
(`+0500` becomes `+05:00`), leaves a string whose offset already has the
colon at the expected position unchanged, and is idempotent: whatever it
produces is a fixed point of a second application. -/
theorem C8_tz_fix_idempotent :
    fix_tz_offset "2024-01-15T10:00:00+0500" = some "2024-01-15T10:00:00+05:00" ∧
    (∀ s : String, 3 ≤ s.data.length →
      s.data.getD (s.data.length - 3) ' ' = ':' → fix_tz_offset s = some s) ∧
    (∀ s t : String, fix_tz_offset s = some t → fix_tz_offset t = some t) := by
  refine ⟨by decide, ?_, ?_⟩
  · intro s hlen hcolon
    rw [fix_tz_offset]
    rw [if_neg (by omega), if_pos hcolon]
  · intro s t hst
    rw [fix_tz_offset] at hst
    by_cases hlen : s.data.length < 3
    · rw [if_pos hlen] at hst
      exact absurd hst (by simp)
    · rw [if_neg hlen] at hst
      by_cases hcolon : s.data.getD (s.data.length - 3) ' ' = ':'
      · rw [if_pos hcolon] at hst
        have ht : t = s := (Option.some.inj hst).symm
        subst ht
        rw [fix_tz_offset, if_neg hlen, if_pos hcolon]
      · rw [if_neg hcolon] at hst
        have ht := (Option.some.inj hst).symm
        have hdata : t.data =
            s.data.take (s.data.length - 2) ++ ':' :: s.data.drop (s.data.length - 2) := by
          rw [ht]
        have htakelen : (s.data.take (s.data.length - 2)).length = s.data.length - 2 := by
          rw [List.length_take]
          omega
        have hlen' : t.data.length = s.data.length + 1 := by
          rw [hdata, List.length_append, List.length_cons, List.length_drop, htakelen]
          omega
        have hcolon' : t.data.getD (t.data.length - 3) ' ' = ':' := by
          rw [hlen', hdata]
          have hpos : s.data.length + 1 - 3 = (s.data.take (s.data.length - 2)).length := by
            rw [htakelen]
            omega
          rw [hpos, getD_append_length]
        rw [fix_tz_offset, if_neg (by omega), if_pos hcolon']

/-- Witness for C8: a string whose offset already carries the colon is
returned unchanged, and the output of fixing a colon-free offset is a
fixed point. -/
theorem C8_tz_fix_idempotent_witness :
    fix_tz_offset "2024-01-15T10:00:00+05:00" = some "2024-01-15T10:00:00+05:00" ∧
    fix_tz_offset "2024-03-31T23:59:59-08:00" = some "2024-03-31T23:59:59-08:00" := by
  refine ⟨C8_tz_fix_idempotent.2.1 "2024-01-15T10:00:00+05:00" (by decide) (by decide),
    C8_tz_fix_idempotent.2.2 "2024-03-31T23:59:59-0800" "2024-03-31T23:59:59-08:00"
      (by decide)⟩

/-- C6: the worklog date filter of `get_all_worklogs_in_date_range`
compares the calendar date written in the (colon-fixed) start timestamp
itself - the date in the own offset of the worklog, with no UTC shift - so
the worklog started `2024-03-31T23:59:59-08:00` is excluded from the
window `2024-04-01..2024-04-30`; in general a worklog carrying a start
timestamp and an issue id is retained exactly when that own-offset
calendar date lies in the closed window. -/
theorem C6_worklog_own_offset_date :
    filterWorklogsByDate [⟨some "2024-03-31T23:59:59-08:00", some "10001"⟩]
      "2024-04-01" "2024-04-30" = [] ∧
    ∀ (ws : List RawWorklog) (w : RawWorklog) (sd ed s s' : String) (iid : String),
      w.started = some s → w.issueId = some iid → fix_tz_offset s = some s' →
      (w ∈ filterWorklogsByDate ws sd ed ↔
        w ∈ ws ∧ (dateLE (parseISODate sd) (parseISODate s') ∧
          dateLE (parseISODate s') (parseISODate ed))) := by
  refine ⟨by decide, ?_⟩
  intro ws w sd ed s s' iid hs hiid hfix
  have hcond : (worklogInRange (parseISODate sd) (parseISODate ed) w &&
      w.issueId.isSome) =
      (dateLE (parseISODate sd) (parseISODate s') &&
        dateLE (parseISODate s') (parseISODate ed)) := by
    simp only [worklogInRange, hs, hiid, hfix, Option.isSome_some, Bool.and_true]
  rw [filterWorklogsByDate, List.mem_filter, hcond, Bool.and_eq_true]

/-- Witness for C6: an in-window worklog is retained by the filter. -/
theorem C6_worklog_own_offset_date_witness :
    (⟨some "2024-04-15T10:00:00-08:00", some "10002"⟩ : RawWorklog) ∈
      filterWorklogsByDate [⟨some "2024-04-15T10:00:00-08:00", some "10002"⟩]
        "2024-04-01" "2024-04-30" ↔
    (⟨some "2024-04-15T10:00:00-08:00", some "10002"⟩ : RawWorklog) ∈
      [(⟨some "2024-04-15T10:00:00-08:00", some "10002"⟩ : RawWorklog)] ∧
      (dateLE (parseISODate "2024-04-01") (parseISODate "2024-04-15T10:00:00-08:00") ∧
        dateLE (parseISODate "2024-04-15T10:00:00-08:00") (parseISODate "2024-04-30")) :=
  C6_worklog_own_offset_date.2 _ _ "2024-04-01" "2024-04-30"
    "2024-04-15T10:00:00-08:00" "2024-04-15T10:00:00-08:00" "10002"
    rfl rfl (by decide)

/-! ## Command-line validation claim (C9) -/

/-- C9 counterexample: a well-formed date pair with the start after the
end, and a malformed date pair, both pass validation and proceed to the
fetch stage - `main` only validates that the two dates are supplied
together, so the claimed early returns for malformed dates and
start-after-end do not exist. -/
theorem C9_validation_gaps_counterexample :
    mainDispatch ⟨none, some "2024-05-01", some "2024-01-01"⟩ =
      .proceed false true ∧
    dateLE (parseISODate "2024-05-01") (parseISODate "2024-01-01") = false ∧
    mainDispatch ⟨none, some "not-a-date", some "2024-13-45"⟩ =
      .proceed false true := by
  refine ⟨by decide, by decide, by decide⟩

/-- C9 as amended: the entry point returns early with a human-readable
error, performing no fetch and writing no artifact, exactly when one of
the two dates is supplied without the other; no other validation
(date format, start-after-end) happens before fetching. -/
theorem C9_early_return_iff_mismatched_pair (a : Args) :
    mainDispatch a = .earlyValidationError ↔
      ((a.start_date.isSome ∧ a.end_date = none) ∨
        (a.start_date = none ∧ a.end_date.isSome)) := by
  rw [mainDispatch]
  split_ifs with h
  · exact iff_of_true rfl h
  · exact iff_of_false (by simp) h

/-! ## Sprint-normalization lemmas (C5) -/

theorem isPref_append_self (p t : List Char) : isPref p (p ++ t) = true := by
  induction p with
  | nil => rfl
  | cons a p ih => simpa [isPref] using ih

theorem isPref_false_of_head_ne {p₀ c : Char} (ps cs : List Char) (h : c ≠ p₀) :
    isPref (p₀ :: ps) (c :: cs) = false := by
  have hbeq : (p₀ == c) = false := beq_eq_false_iff_ne.mpr (fun hc => h hc.symm)
  simp [isPref, hbeq]

/-- A successful prefix match that fits inside the left part of an
append restricts to the left part. -/
theorem isPref_left {pat C D : List Char} (h : isPref pat (C ++ D) = true)
    (hle : pat.length ≤ C.length) : isPref pat C = true := by
  induction pat generalizing C with
  | nil => rfl
  | cons p ps ih =>
    cases C with
    | nil => simp at hle
    | cons c C =>
      simp only [List.cons_append, isPref, Bool.and_eq_true] at h ⊢
      exact ⟨h.1, ih h.2 (by simpa using hle)⟩

/-- A successful prefix match that overruns the left part of an append
pins the pattern character at the boundary. -/
theorem isPref_boundary {pat C D : List Char} {c : Char}
    (h : isPref pat (C ++ c :: D) = true) (hlt : C.length < pat.length) :
    pat.getD C.length ' ' = c := by
  induction C generalizing pat with
  | nil =>
    cases pat with
    | nil => simp at hlt
    | cons p ps =>
      simp only [List.nil_append, isPref, Bool.and_eq_true, beq_iff_eq] at h
      simpa using h.1
  | cons a C ih =>
    cases pat with
    | nil => simp at hlt
    | cons p ps =>
      simp only [List.cons_append, isPref, Bool.and_eq_true] at h
      simpa [List.getD_cons_succ] using ih h.2 (by simpa using hlt)

/-- A prefix match of a suffix is an occurrence. -/
theorem containsSub_of_isPref_drop {pat X : List Char} (n : Nat)
    (h : isPref pat (X.drop n) = true) : containsSub pat X = true := by
  induction n generalizing X with
  | zero =>
    rw [List.drop_zero] at h
    cases X with
    | nil =>
      cases pat with
      | nil => rfl
      | cons p ps => simp [isPref] at h
    | cons c cs => simp [containsSub, h]
  | succ n ih =>
    cases X with
    | nil =>
      cases pat with
      | nil => rfl
      | cons p ps => simp [isPref] at h
    | cons c cs =>
      rw [List.drop_succ_cons] at h
      simp [containsSub, ih h]

/-- The scanner skips a position where the pattern does not match. -/
theorem scanCapture_cons_of_not_pref {pat : List Char} {good : Char → Bool}
    {c : Char} {cs : List Char} (h : isPref pat (c :: cs) = false) :
    scanCapture pat good (c :: cs) = scanCapture pat good cs := by
  simp [scanCapture, h]

/-- The scanner fires at an exact pattern occurrence followed by a
nonempty run of capture characters. -/
theorem scanCapture_at_head {p₀ : Char} {ps rest : List Char} {good : Char → Bool}
    (hcap : rest.takeWhile good ≠ []) :
    scanCapture (p₀ :: ps) good ((p₀ :: ps) ++ rest) = some (rest.takeWhile good) := by
  have hpref : isPref (p₀ :: ps) ((p₀ :: ps) ++ rest) = true := isPref_append_self _ _
  have hdrop : ((p₀ :: ps) ++ rest).drop (p₀ :: ps).length = rest := List.drop_left _ _
  rw [List.cons_append, scanCapture]
  rw [List.cons_append] at hpref
  rw [if_pos hpref]
  rw [← List.cons_append, hdrop]
  simp only [List.isEmpty_iff]
  rw [if_neg hcap]

/-- The scanner skips a whole block at every position of which the
pattern fails to match. -/
theorem scanCapture_skip {pat : List Char} {good : Char → Bool} (A B : List Char)
    (h : ∀ n, n < A.length → isPref pat (A.drop n ++ B) = false) :
    scanCapture pat good (A ++ B) = scanCapture pat good B := by
  induction A with
  | nil => rfl
  | cons a A ih =>
    have h0 : isPref pat ((a :: A) ++ B) = false := by
      simpa using h 0 (by simp)
    rw [List.cons_append, scanCapture_cons_of_not_pref (by simpa using h0)]
    exact ih (fun n hn => by simpa [List.drop_succ_cons] using h (n + 1) (by simpa using hn))

/-- Skipping a block none of whose characters can start the pattern. -/
theorem scanCapture_skip_head_ne {p₀ : Char} {ps : List Char} {good : Char → Bool}
    (A B : List Char) (h : ∀ a ∈ A, a ≠ p₀) :
    scanCapture (p₀ :: ps) good (A ++ B) = scanCapture (p₀ :: ps) good B := by
  refine scanCapture_skip A B ?_
  intro n hn
  rw [List.drop_eq_getElem_cons hn, List.cons_append]
  exact isPref_false_of_head_ne _ _ (h _ (List.getElem_mem hn))

/-- Skipping a comma-terminated block that does not contain the pattern,
for a pattern free of commas. -/
theorem scanCapture_skip_comma_block {pat : List Char} {good : Char → Bool}
    (X Y : List Char) (hocc : containsSub pat X = false)
    (hcomma : ',' ∉ pat) :
    scanCapture pat good (X ++ ',' :: Y) = scanCapture pat good (',' :: Y) := by
  refine scanCapture_skip X (',' :: Y) ?_
  intro n hn
  by_contra hmatch
  rw [Bool.not_eq_false] at hmatch
  by_cases hfit : pat.length ≤ (X.drop n).length
  · have := isPref_left hmatch hfit
    rw [containsSub_of_isPref_drop n this] at hocc
    exact Bool.true_eq_false.mp hocc
  · have hb := isPref_boundary hmatch (by omega)
    rw [List.getD_eq_getElem pat ' ' (by omega)] at hb
    exact hcomma (hb ▸ List.getElem_mem _)

theorem takeWhile_all {good : Char → Bool} (l : List Char)
    (h : ∀ a ∈ l, good a = true) : l.takeWhile good = l := by
  induction l with
  | nil => rfl
  | cons a l ih =>
    rw [List.takeWhile_cons, h a (List.mem_cons_self a l), if_pos rfl,
      ih (fun b hb => h b (List.mem_cons_of_mem a hb))]

theorem takeWhile_all_append {good : Char → Bool} (A : List Char) (c : Char)
    (B : List Char) (hA : ∀ a ∈ A, good a = true) (hc : good c = false) :
    (A ++ c :: B).takeWhile good = A := by
  induction A with
  | nil => simp [List.takeWhile_cons, hc]
  | cons a A ih =>
    rw [List.cons_append, List.takeWhile_cons, hA a (List.mem_cons_self a A),
      if_pos rfl, ih (fun b hb => hA b (List.mem_cons_of_mem a hb))]

theorem digit_ne_n {c : Char} (h : c.isDigit = true) : c ≠ 'n' := by
  intro he
  subst he
  exact absurd h (by decide)

theorem digit_ne_s {c : Char} (h : c.isDigit = true) : c ≠ 's' := by
  intro he
  subst he
  exact absurd h (by decide)

theorem digits_ne_unknown {sid : String} (h1 : sid.data ≠ [])
    (h2 : ∀ c ∈ sid.data, c.isDigit = true) : sid ≠ "Unknown" := by
  intro he
  subst he
  exact absurd (h2 'U' (List.mem_cons_self _ _)) (by decide)

theorem containsSub_append_self (p₀ : Char) (ps t : List Char) :
    containsSub (p₀ :: ps) ((p₀ :: ps) ++ t) = true := by
  rw [List.cons_append, containsSub, ← List.cons_append, isPref_append_self,
    Bool.true_or]

/-- The id regex on the full legacy string captures exactly the digit
block. -/
theorem extractId_full (sid sname sstate : String) (hsid1 : sid.data ≠ [])
    (hsid2 : ∀ c ∈ sid.data, c.isDigit = true) :
    extractId ("id=" ++ sid ++ ",name=" ++ sname ++ ",state=" ++ sstate) = sid := by
  have hlist : ("id=" ++ sid ++ ",name=" ++ sname ++ ",state=" ++ sstate).data =
      "id=".data ++ (sid.data ++ ',' ::
        ("name=".data ++ (sname.data ++ ',' ::
          ("state=".data ++ sstate.data)))) := by
    simp only [String.data_append, List.append_assoc]
    rfl
  rw [extractId, hlist]
  have hcap : (sid.data ++ ',' ::
      ("name=".data ++ (sname.data ++ ',' ::
        ("state=".data ++ sstate.data)))).takeWhile Char.isDigit = sid.data :=
    takeWhile_all_append _ _ _ hsid2 (by decide)
  rw [show ("id=".data : List Char) = 'i' :: ['d', '='] from rfl] at *
  rw [scanCapture_at_head (by rw [hcap]; exact hsid1), hcap]

/-- The name regex on the full legacy string captures exactly the name
block. -/
theorem extractName_full (sid sname sstate : String) (hsid2 : ∀ c ∈ sid.data, c.isDigit = true)
    (hname1 : sname.data ≠ []) (hname2 : ∀ c ∈ sname.data, notCommaBr c = true) :
    extractName ("id=" ++ sid ++ ",name=" ++ sname ++ ",state=" ++ sstate) = sname := by
  have hlist : ("id=" ++ sid ++ ",name=" ++ sname ++ ",state=" ++ sstate).data =
      ("id=".data ++ sid.data ++ [',']) ++
        ("name=".data ++ (sname.data ++ ',' ::
          ("state=".data ++ sstate.data))) := by
    simp only [String.data_append, List.append_assoc]
    rfl
  rw [extractName, hlist]
  have hskip := @scanCapture_skip_head_ne 'n' ['a', 'm', 'e', '='] notCommaBr
    ("id=".data ++ sid.data ++ [','])
    ("name=".data ++ (sname.data ++ ',' :: ("state=".data ++ sstate.data)))
    (by
      intro a ha
      rcases List.mem_append.mp ha with ha | ha
      · rcases List.mem_append.mp ha with ha | ha
        · fin_cases ha <;> decide
        · exact digit_ne_n (hsid2 a ha)
      · rw [List.mem_singleton] at ha
        subst ha
        decide)
  rw [show ("name=".data : List Char) = 'n' :: ['a', 'm', 'e', '='] from rfl] at *
  rw [hskip]
  have hcap : (sname.data ++ ',' ::
      ("state=".data ++ sstate.data)).takeWhile notCommaBr = sname.data :=
    takeWhile_all_append _ _ _ hname2 (by decide)
  rw [scanCapture_at_head (by rw [hcap]; exact hname1), hcap]

/-- The state regex on the full legacy string captures exactly the state
block, provided the name block does not itself contain `state=`. -/
theorem extractState_full (sid sname sstate : String)
    (hsid2 : ∀ c ∈ sid.data, c.isDigit = true)
    (hname3 : containsSub "state=".data sname.data = false)
    (hstate1 : sstate.data ≠ []) (hstate2 : ∀ c ∈ sstate.data, notCommaBr c = true) :
    extractState ("id=" ++ sid ++ ",name=" ++ sname ++ ",state=" ++ sstate) = sstate := by
  have hlist : ("id=" ++ sid ++ ",name=" ++ sname ++ ",state=" ++ sstate).data =
      ("id=".data ++ sid.data ++ [','] ++ "name=".data) ++
        (sname.data ++ ',' :: ("state=".data ++ sstate.data)) := by
    simp only [String.data_append, List.append_assoc]
    rfl
  rw [extractState, hlist]
  have hskip1 := @scanCapture_skip_head_ne 's' ['t', 'a', 't', 'e', '='] notCommaBr
    ("id=".data ++ sid.data ++ [','] ++ "name=".data)
    (sname.data ++ ',' :: ("state=".data ++ sstate.data))
    (by
      intro a ha
      rcases List.mem_append.mp ha with ha | ha
      · rcases List.mem_append.mp ha with ha | ha
        · rcases List.mem_append.mp ha with ha | ha
          · fin_cases ha <;> decide
          · exact digit_ne_s (hsid2 a ha)
        · rw [List.mem_singleton] at ha
          subst ha
          decide
      · fin_cases ha <;> decide)
  have hskip2 := @scanCapture_skip_comma_block "state=".data notCommaBr
    sname.data ("state=".data ++ sstate.data) hname3 (by decide)
  have hskip3 : scanCapture "state=".data notCommaBr
      (',' :: ("state=".data ++ sstate.data)) =
      scanCapture "state=".data notCommaBr ("state=".data ++ sstate.data) :=
    scanCapture_cons_of_not_pref (isPref_false_of_head_ne _ _ (by decide))
  rw [show ("state=".data : List Char) = 's' :: ['t', 'a', 't', 'e', '='] from rfl] at *
  rw [hskip1, hskip2, hskip3]
  have hcap : sstate.data.takeWhile notCommaBr = sstate.data :=
    takeWhile_all _ hstate2
  rw [scanCapture_at_head (by rw [hcap]; exact hstate1), hcap]

/-- The id regex on the short string `id=<digits>`. -/
theorem extractId_short (sid : String) (hsid1 : sid.data ≠ [])
    (hsid2 : ∀ c ∈ sid.data, c.isDigit = true) :
    extractId ("id=" ++ sid) = sid := by
  have hlist : ("id=" ++ sid).data = "id=".data ++ sid.data := by
    simp only [String.data_append]
  rw [extractId, hlist]
  have hcap : sid.data.takeWhile Char.isDigit = sid.data := takeWhile_all _ hsid2
  rw [show ("id=".data : List Char) = 'i' :: ['d', '='] from rfl] at *
  rw [scanCapture_at_head (by rw [hcap]; exact hsid1), hcap]

/-- The name regex finds nothing in `id=<digits>`. -/
theorem extractName_short (sid : String) (hsid2 : ∀ c ∈ sid.data, c.isDigit = true) :
    extractName ("id=" ++ sid) = "Unknown" := by
  have hlist : ("id=" ++ sid).data = ("id=".data ++ sid.data) ++ [] := by
    simp only [String.data_append, List.append_nil]
  rw [extractName, hlist]
  have hskip := @scanCapture_skip_head_ne 'n' ['a', 'm', 'e', '='] notCommaBr
    ("id=".data ++ sid.data) []
    (by
      intro a ha
      rcases List.mem_append.mp ha with ha | ha
      · fin_cases ha <;> decide
      · exact digit_ne_n (hsid2 a ha))
  rw [show ("name=".data : List Char) = 'n' :: ['a', 'm', 'e', '='] from rfl] at *
  rw [hskip]
  rfl

/-- The state regex finds nothing in `id=<digits>`. -/
theorem extractState_short (sid : String) (hsid2 : ∀ c ∈ sid.data, c.isDigit = true) :
    extractState ("id=" ++ sid) = "Unknown" := by
  have hlist : ("id=" ++ sid).data = ("id=".data ++ sid.data) ++ [] := by
    simp only [String.data_append, List.append_nil]
  rw [extractState, hlist]
  have hskip := @scanCapture_skip_head_ne 's' ['t', 'a', 't', 'e', '='] notCommaBr
    ("id=".data ++ sid.data) []
    (by
      intro a ha
      rcases List.mem_append.mp ha with ha | ha
      · fin_cases ha <;> decide
      · exact digit_ne_s (hsid2 a ha))
  rw [show ("state=".data : List Char) = 's' :: ['t', 'a', 't', 'e', '='] from rfl] at *
  rw [hskip]
  rfl

/-- C5: for identical underlying sprint data, the three field shapes -
list of dicts, single dict, and legacy `id=..,name=..,state=..` string -
all normalize to the same uniform `{id, name, state}` record, and a
field missing from the string form is substituted by `Unknown`.  The
hypotheses pin down well-formed data: a nonempty digit id, and nonempty
name/state values free of the characters the regex stops at (commas and
closing brackets) with the name not embedding a `state=` marker. -/
theorem C5_sprint_shape_invariance (sid sname sstate : String)
    (hsid1 : sid.data ≠ []) (hsid2 : ∀ c ∈ sid.data, c.isDigit = true)
    (hname1 : sname.data ≠ []) (hname2 : ∀ c ∈ sname.data, notCommaBr c = true)
    (hname3 : containsSub "state=".data sname.data = false)
    (hstate1 : sstate.data ≠ []) (hstate2 : ∀ c ∈ sstate.data, notCommaBr c = true) :
    normalizeSprints (.list [.dict (some sid) (some sname) (some sstate)]) =
      [⟨sid, sname, sstate⟩] ∧
    normalizeSprints (.dict (some sid) (some sname) (some sstate)) =
      [⟨sid, sname, sstate⟩] ∧
    normalizeSprints (.str ("id=" ++ sid ++ ",name=" ++ sname ++ ",state=" ++ sstate)) =
      [⟨sid, sname, sstate⟩] ∧
    normalizeSprints (.str ("id=" ++ sid)) = [⟨sid, "Unknown", "Unknown"⟩] := by
  have hU : sid ≠ "Unknown" := digits_ne_unknown hsid1 hsid2
  have hfullne : ("id=" ++ sid ++ ",name=" ++ sname ++ ",state=" ++ sstate : String) ≠ "" := by
    intro he
    have hd := congrArg String.data he
    simp only [String.data_append] at hd
    simp [List.append_eq_nil] at hd
  have hshortne : ("id=" ++ sid : String) ≠ "" := by
    intro he
    have hd := congrArg String.data he
    simp only [String.data_append] at hd
    simp [List.append_eq_nil] at hd
  have hfullmark : strLooksLikeSprint
      ("id=" ++ sid ++ ",name=" ++ sname ++ ",state=" ++ sstate) = true := by
    have hlist : ("id=" ++ sid ++ ",name=" ++ sname ++ ",state=" ++ sstate).data =
        "id=".data ++ (sid.data ++ ',' ::
          ("name=".data ++ (sname.data ++ ',' ::
            ("state=".data ++ sstate.data)))) := by
      simp only [String.data_append, List.append_assoc]
      rfl
    rw [strLooksLikeSprint, hlist,
      show ("id=".data : List Char) = 'i' :: ['d', '='] from rfl,
      containsSub_append_self, Bool.true_or]
  have hshortmark : strLooksLikeSprint ("id=" ++ sid) = true := by
    have hlist : ("id=" ++ sid).data = "id=".data ++ sid.data := by
      simp only [String.data_append]
    rw [strLooksLikeSprint, hlist,
      show ("id=".data : List Char) = 'i' :: ['d', '='] from rfl,
      containsSub_append_self, Bool.true_or]
  refine ⟨?_, ?_, ?_, ?_⟩
  · simp [normalizeSprints, detectSprintField, fieldTruthy, sprintValTruthy,
      parseSprintData, hU]
  · simp [normalizeSprints, detectSprintField, fieldTruthy, sprintValTruthy,
      parseSprintData, hU]
  · simp [normalizeSprints, detectSprintField, fieldTruthy, sprintValTruthy,
      parseSprintData, hfullne, hfullmark, hU,
      extractId_full sid sname sstate hsid1 hsid2,
      extractName_full sid sname sstate hsid2 hname1 hname2,
      extractState_full sid sname sstate hsid2 hname3 hstate1 hstate2]
  · simp [normalizeSprints, detectSprintField, fieldTruthy, sprintValTruthy,
      parseSprintData, hshortne, hshortmark, hU,
      extractId_short sid hsid1 hsid2, extractName_short sid hsid2,
      extractState_short sid hsid2]

/-- Witness for C5 at the concrete sprint `id=5, name=Sprint X,
state=active`. -/
theorem C5_sprint_shape_invariance_witness :
    normalizeSprints (.list [.dict (some "5") (some "Sprint X") (some "active")]) =
      [⟨"5", "Sprint X", "active"⟩] ∧
    normalizeSprints (.dict (some "5") (some "Sprint X") (some "active")) =
      [⟨"5", "Sprint X", "active"⟩] ∧
    normalizeSprints (.str "id=5,name=Sprint X,state=active") =
      [⟨"5", "Sprint X", "active"⟩] ∧
    normalizeSprints (.str "id=5") = [⟨"5", "Unknown", "Unknown"⟩] :=
  C5_sprint_shape_invariance "5" "Sprint X" "active" (by decide) (by decide)
    (by decide) (by decide) (by decide) (by decide) (by decide)
